import Mathlib

/-!
Shallow embedding of `timetable_generator.py` (class `TimetableGenerator`).

Conventions of the embedding:
* Python `datetime` start/end times are modelled as `Nat` minutes-of-day; all
  slots in the source share one reference date, so `<` on the datetimes is
  exactly `<` on the time of day.
* Python dicts (`color_assignments`, `room_assignments`) are association lists
  in insertion order; `dictInsert` reproduces dict-update semantics (updating
  an existing key keeps its position, a new key is appended at the end).
* Fallible operations (`dict[k]` raising `KeyError`, `list[i]` raising
  `IndexError`, `next(...)` raising `StopIteration`) return `Option`, with
  `none` for the raised exception propagating out of the function.
* `sorted(..., key=..., reverse=True)` and `list.sort(key=...)` are Python's
  stable sorts; they are embedded as stable insertion sorts (`sortDescBy`,
  `sortAscBy`), which compute the same list as any stable sort.
* Iteration over the Python set `available_colors = set(range(T))` visits the
  integers `0..T-1` in ascending order (CPython iterates a set of the small
  consecutive ints `0..T-1` ascending, and the set is never mutated); it is
  embedded as `List.range T`.
* Course ids are globally unique by the input contract; theorems that need
  this carry the hypothesis `(courses.map Course.id).Nodup`.
-/

namespace Timetable

/-- Python dataclass `TimeSlot` (day, start_time, end_time); times in minutes. -/
structure TimeSlot where
  day : String
  start_time : Nat
  end_time : Nat
deriving DecidableEq

/-- Python dataclass `Course`. -/
structure Course where
  id : String
  name : String
  teacher : String
  student_group : String
  duration : Nat
  department : String
deriving DecidableEq

/-- Python dataclass `Room`. -/
structure Room where
  id : String
  capacity : Nat
  department : String
  room_type : String
deriving DecidableEq

/-- Python `str.upper()` restricted to its action on the characters of the
department codes (ASCII); maps each character to upper case. -/
def pyUpper (s : String) : String :=
  String.mk (s.data.map Char.toUpper)

/-- The conflict test of `build_conflict_graph` (lines 57-58):
`course1.teacher == course2.teacher or course1.student_group == course2.student_group`. -/
def courseConflict (c1 c2 : Course) : Bool :=
  c1.teacher == c2.teacher || c1.student_group == c2.student_group

/-- The edges inserted by `build_conflict_graph`: for every `i < j`,
an edge `(courses[i].id, courses[j].id)` when the conflict test holds. -/
def buildEdges : List Course → List (String × String)
  | [] => []
  | c :: rest =>
    (rest.filter (fun c2 => courseConflict c c2)).map (fun c2 => (c.id, c2.id)) ++
      buildEdges rest

/-- Adjacency in the undirected `networkx` graph: an edge in either orientation. -/
def adjacent (courses : List Course) (a b : String) : Bool :=
  (buildEdges courses).any (fun e => (e.1 == a && e.2 == b) || (e.1 == b && e.2 == a))

/-- `self.graph.degree(v)`: the number of graph nodes adjacent to `v`
(the nodes are the course ids, registered in course order). -/
def degree (courses : List Course) (v : String) : Nat :=
  ((courses.map Course.id).filter (fun u => adjacent courses v u)).length

/-- Stable insertion (descending by `key`): `v` is placed before the first
element whose key is `≤ key v`, so equal keys keep their original order. -/
def insertDescBy (key : α → Nat) (v : α) : List α → List α
  | [] => [v]
  | w :: ws => if key w ≤ key v then v :: w :: ws else w :: insertDescBy key v ws

/-- Stable sort, descending by `key`; embeds Python
`sorted(..., key=key, reverse=True)` (a stable sort). -/
def sortDescBy (key : α → Nat) : List α → List α
  | [] => []
  | v :: vs => insertDescBy key v (sortDescBy key vs)

/-- Stable insertion (ascending by `key`). -/
def insertAscBy (key : α → Nat) (v : α) : List α → List α
  | [] => [v]
  | w :: ws => if key v ≤ key w then v :: w :: ws else w :: insertAscBy key v ws

/-- Stable sort, ascending by `key`; embeds Python `list.sort(key=key)`. -/
def sortAscBy (key : α → Nat) : List α → List α
  | [] => []
  | v :: vs => insertAscBy key v (sortAscBy key vs)

/-- Line 68-70 of the source: the vertices of the conflict graph sorted by
degree in descending order (Python's sort is stable, so ties keep node
insertion order, which is course registration order). -/
def wpOrder (courses : List Course) : List String :=
  sortDescBy (degree courses) (courses.map Course.id)

/-- Line 77-78: the set of colors used by the already-colored neighbors of `v`
(`colors` is the association list `acc`). -/
def usedColors (adj : String → String → Bool) (v : String)
    (acc : List (String × Nat)) : List Nat :=
  acc.filterMap (fun p => if adj v p.1 then some p.2 else none)

/-- Line 81: `next(color for color in available_colors if color not in used_colors)`
with `available_colors = set(range(T))`, iterated ascending; `none` is the
`StopIteration` raised by `next` when every color is used. -/
def firstFree (T : Nat) (used : List Nat) : Option Nat :=
  (List.range T).find? (fun c => !used.contains c)

/-- The coloring loop (lines 75-82): processes the vertices in order,
assigning each the first available color; `none` when `next` raises. -/
def greedyColor (adj : String → String → Bool) (T : Nat) :
    List String → List (String × Nat) → Option (List (String × Nat))
  | [], acc => some acc
  | v :: vs, acc =>
    match firstFree T (usedColors adj v acc) with
    | some c => greedyColor adj T vs (acc ++ [(v, c)])
    | none => none

/-- `welsh_powell_coloring` (lines 61-84): vertices sorted by degree
descending, then greedy coloring; returns the `colors` dict in insertion
order, or `none` if the loop raises `StopIteration`. -/
def welsh_powell_coloring (courses : List Course) (T : Nat) :
    Option (List (String × Nat)) :=
  greedyColor (adjacent courses) T (wpOrder courses) []

/-- `_time_slots_overlap` (lines 142-146). -/
def _time_slots_overlap (s1 s2 : TimeSlot) : Bool :=
  s1.day == s2.day && decide (s1.start_time < s2.end_time) &&
    decide (s2.start_time < s1.end_time)

/-- The slot of an already-assigned course (line 137):
`self.time_slots[self.color_assignments[course_id]]`; `none` is the
`KeyError` / `IndexError` raised when the lookup fails. -/
def slotOf (colorA : List (String × Nat)) (slots : List TimeSlot)
    (cid : String) : Option TimeSlot :=
  match colorA.lookup cid with
  | none => none
  | some idx => slots[idx]?

/-- Python dict assignment `d[k] = v`: updating an existing key keeps its
position, a fresh key is appended at the end. -/
def dictInsert (k : String) (v : String) : List (String × String) → List (String × String)
  | [] => [(k, v)]
  | (k', v') :: rest =>
    if k' == k then (k', v) :: rest else (k', v') :: dictInsert k v rest

/-- `_is_room_available` (lines 133-140): scans `room_assignments` in
insertion order; `some false` on the first overlapping occupant of the room,
`none` when the occupant's slot lookup raises. -/
def _is_room_available (colorA : List (String × Nat)) (slots : List TimeSlot) :
    List (String × String) → String → TimeSlot → Option Bool
  | [], _, _ => some true
  | (cid, rid') :: rest, rid, slot =>
    if rid' == rid then
      match slotOf colorA slots cid with
      | none => none
      | some s =>
        if _time_slots_overlap slot s then some false
        else _is_room_available colorA slots rest rid slot
    else _is_room_available colorA slots rest rid slot

/-- One tier scan of `assign_rooms` (e.g. lines 101-105): the first room of
the tier that `_is_room_available` accepts; `some none` when the tier is
exhausted, `none` when an availability check raises. -/
def findAvailable (colorA : List (String × Nat)) (slots : List TimeSlot)
    (roomA : List (String × String)) (slot : TimeSlot) :
    List Room → Option (Option Room)
  | [] => some none
  | r :: rs =>
    match _is_room_available colorA slots roomA r.id slot with
    | none => none
    | some true => some (some r)
    | some false => findAvailable colorA slots roomA slot rs

/-- The three candidate-room tiers of `assign_rooms` for a course
(lines 100, 109, 118-120): own department, `NAB` (after `.upper()`), rest. -/
def tiers (rooms : List Room) (course : Course) : List (List Room) :=
  [rooms.filter (fun r => r.department == course.department),
   rooms.filter (fun r => pyUpper r.department == "NAB"),
   rooms.filter (fun r =>
     r.department != course.department && pyUpper r.department != "NAB")]

/-- The sequential tier scans of `assign_rooms`: the first room found in the
first tier that has one; `some none` when every tier is exhausted. -/
def tryTiers (colorA : List (String × Nat)) (slots : List TimeSlot)
    (roomA : List (String × String)) (slot : TimeSlot) :
    List (List Room) → Option (Option Room)
  | [] => some none
  | t :: ts =>
    match findAvailable colorA slots roomA slot t with
    | none => none
    | some (some r) => some (some r)
    | some none => tryTiers colorA slots roomA slot ts

/-- One iteration of the `assign_rooms` loop body (lines 94-131) for one
course: look up its slot (line 95-96 can raise `KeyError` / `IndexError`),
scan the tiers, record the room found, or leave the map unchanged (the
source only prints a warning then). -/
def assignCourse (rooms : List Room) (colorA : List (String × Nat))
    (slots : List TimeSlot) (roomA : List (String × String)) (course : Course) :
    Option (List (String × String)) :=
  match colorA.lookup course.id with
  | none => none
  | some idx =>
    match slots[idx]? with
    | none => none
    | some slot =>
      match tryTiers colorA slots roomA slot (tiers rooms course) with
      | none => none
      | some (some r) => some (dictInsert course.id r.id roomA)
      | some none => some roomA

/-- `assign_rooms` (lines 86-131): processes courses in registration order,
threading `room_assignments`. -/
def assign_rooms (rooms : List Room) (colorA : List (String × Nat))
    (slots : List TimeSlot) :
    List Course → List (String × String) → Option (List (String × String))
  | [], roomA => some roomA
  | c :: cs, roomA =>
    match assignCourse rooms colorA slots roomA c with
    | none => none
    | some roomA' => assign_rooms rooms colorA slots cs roomA'

/-- One iteration of the `optimize_schedules` loop (lines 154-162) for one
course: `some none` when the course is skipped for having no room
(lines 155-157), `none` when one of the lookups raises. -/
def scheduleEntry (slots : List TimeSlot) (rooms : List Room)
    (colorA : List (String × Nat)) (roomA : List (String × String))
    (c : Course) : Option (Option (Course × TimeSlot × Room)) :=
  match roomA.lookup c.id with
  | none => some none
  | some rid =>
    match colorA.lookup c.id with
    | none => none
    | some idx =>
      match slots[idx]? with
      | none => none
      | some slot =>
        match rooms.find? (fun r => r.id == rid) with
        | none => none
        | some room => some (some (c, slot, room))

/-- The insertion phase of `optimize_schedules`: the `(course, slot, room)`
triples of the room-assigned courses, in registration order. -/
def build_schedule_entries (slots : List TimeSlot) (rooms : List Room)
    (colorA : List (String × Nat)) (roomA : List (String × String)) :
    List Course → Option (List (Course × TimeSlot × Room))
  | [] => some []
  | c :: cs =>
    match scheduleEntry slots rooms colorA roomA c with
    | none => none
    | some none => build_schedule_entries slots rooms colorA roomA cs
    | some (some e) =>
      (build_schedule_entries slots rooms colorA roomA cs).map (fun es => e :: es)

/-- The sort key of lines 166 and 168: `x[1].start_time`. -/
def entryStart (e : Course × TimeSlot × Room) : Nat :=
  e.2.1.start_time

/-- `teacher_schedules[t]` after `optimize_schedules`: the entries of the
courses taught by `t` (appended in registration order, lines 154-161), then
`sort(key=lambda x: x[1].start_time)` (line 166, a stable sort). -/
def teacher_schedule (t : String) (courses : List Course) (slots : List TimeSlot)
    (rooms : List Room) (colorA : List (String × Nat))
    (roomA : List (String × String)) : Option (List (Course × TimeSlot × Room)) :=
  (build_schedule_entries slots rooms colorA roomA courses).map
    (fun es => sortAscBy entryStart (es.filter (fun e => e.1.teacher == t)))

/-- `student_schedules[g]` after `optimize_schedules` (lines 162, 168). -/
def student_schedule (g : String) (courses : List Course) (slots : List TimeSlot)
    (rooms : List Room) (colorA : List (String × Nat))
    (roomA : List (String × String)) : Option (List (Course × TimeSlot × Room)) :=
  (build_schedule_entries slots rooms colorA roomA courses).map
    (fun es => sortAscBy entryStart (es.filter (fun e => e.1.student_group == g)))

/-- The "Course Assignments" loop of `_format_timetable` (lines 184-188):
for every registered course it looks up `self.color_assignments[course.id]`,
`self.time_slots[...]`, `self.room_assignments[course.id]` and
`next(r for r in self.rooms if r.id == ...)`; `none` is the raised
`KeyError` / `IndexError` / `StopIteration`. The string rendering is
abstracted to the list of `(course, slot, room)` triples it formats. -/
def formatEntries (slots : List TimeSlot) (rooms : List Room)
    (colorA : List (String × Nat)) (roomA : List (String × String)) :
    List Course → Option (List (Course × TimeSlot × Room))
  | [] => some []
  | c :: cs =>
    match colorA.lookup c.id with
    | none => none
    | some idx =>
      match slots[idx]? with
      | none => none
      | some slot =>
        match roomA.lookup c.id with
        | none => none
        | some rid =>
          match rooms.find? (fun r => r.id == rid) with
          | none => none
          | some room =>
            (formatEntries slots rooms colorA roomA cs).map (fun es => (c, slot, room) :: es)

/-- `generate_timetable` (lines 170-176): the four stages in order, ending in
`_format_timetable`; `none` when any stage raises an exception. -/
def generate_timetable (courses : List Course) (slots : List TimeSlot)
    (rooms : List Room) : Option (List (Course × TimeSlot × Room)) :=
  match welsh_powell_coloring courses slots.length with
  | none => none
  | some colorA =>
    match assign_rooms rooms colorA slots courses [] with
    | none => none
    | some roomA =>
      match build_schedule_entries slots rooms colorA roomA courses with
      | none => none
      | some _ => formatEntries slots rooms colorA roomA courses

/-! ### Derived predicates used to state the claims -/

/-- The greedy choice at position `i` of the returned assignment:
a color `< T`, not used by the already-colored neighbors, and every smaller
color is used by one of them. -/
def GreedyStep (adj : String → String → Bool) (T : Nat)
    (res : List (String × Nat)) (i : Nat) (hi : i < res.length) : Prop :=
  (res.get ⟨i, hi⟩).2 < T ∧
  (usedColors adj (res.get ⟨i, hi⟩).1 (res.take i)).contains (res.get ⟨i, hi⟩).2
    = false ∧
  ∀ e, e < (res.get ⟨i, hi⟩).2 →
    (usedColors adj (res.get ⟨i, hi⟩).1 (res.take i)).contains e = true

/-- A properly colored association list: entries with distinct adjacent keys
have distinct colors. -/
def Proper (adj : String → String → Bool) (acc : List (String × Nat)) : Prop :=
  ∀ p ∈ acc, ∀ q ∈ acc, p.1 ≠ q.1 → adj p.1 q.1 = true → p.2 ≠ q.2

/-- The keys of an association list are duplicate-free (Python dicts have
this by construction). -/
def KeyNodup (roomA : List (String × String)) : Prop :=
  (roomA.map Prod.fst).Nodup

/-- The room-allocation invariant: keys are duplicate-free, every assigned
course has a well-defined slot, and two distinct courses assigned to the
same room never occupy overlapping slots. -/
def RoomInv (colorA : List (String × Nat)) (slots : List TimeSlot)
    (roomA : List (String × String)) : Prop :=
  KeyNodup roomA ∧
  (∀ p ∈ roomA, ∃ s, slotOf colorA slots p.1 = some s) ∧
  ∀ p ∈ roomA, ∀ q ∈ roomA, p.1 ≠ q.1 → p.2 = q.2 →
    ∀ s1 s2, slotOf colorA slots p.1 = some s1 →
      slotOf colorA slots q.1 = some s2 → _time_slots_overlap s1 s2 = false

/-- Modelled from the spec (§4.4): the fixed Monday→Friday weekday order the
specification demands for schedule sorting. This definition follows the
spec's words, not the source (the source has no such ordering), and exists
only to compare the source's behavior against the claimed one. -/
def specDayIndex : String → Nat
  | "Monday" => 0
  | "Tuesday" => 1
  | "Wednesday" => 2
  | "Thursday" => 3
  | "Friday" => 4
  | _ => 5

/-- Modelled from the spec: a necessary condition of the claimed schedule
order (weekday Monday→Friday outermost) — the weekday indices must be
non-decreasing along the sequence. -/
def SpecDayMonotone (l : List (Course × TimeSlot × Room)) : Prop :=
  l.Pairwise (fun e1 e2 => specDayIndex e1.2.1.day ≤ specDayIndex e2.2.1.day)

/-! ### Concrete data used by the witnesses and counterexamples -/

/-- Example course: taught by `T1` for group `G1` in department `FCSE`. -/
def exA : Course := ⟨"A", "CourseA", "T1", "G1", 60, "FCSE"⟩

/-- Example course: taught by `T1` (conflicts with `exA`) for group `G2`. -/
def exB : Course := ⟨"B", "CourseB", "T1", "G2", 60, "FCSE"⟩

/-- Example slot: Monday 08:00-09:00. -/
def exMon8 : TimeSlot := ⟨"Monday", 480, 540⟩

/-- Example slot: Monday 09:00-10:00. -/
def exMon9 : TimeSlot := ⟨"Monday", 540, 600⟩

/-- Example slot: Tuesday 08:00-09:00. -/
def exTue8 : TimeSlot := ⟨"Tuesday", 480, 540⟩

/-- Example room of department `FCSE`. -/
def exLH1 : Room := ⟨"FCSE-LH1", 50, "FCSE", "LH"⟩

/-- Example overflow room of department `NAB`. -/
def exNAB5 : Room := ⟨"NAB-LH5", 50, "NAB", "LH"⟩

/-- The coloring `welsh_powell_coloring [exA, exB] 2` computes. -/
def exColorAB : List (String × Nat) := [("A", 0), ("B", 1)]

/-- The allocation `assign_rooms` computes for `[exA, exB]` with rooms
`[exLH1, exNAB5]` and slots `[exMon8, exMon9]`. -/
def exRoomAB : List (String × String) := [("A", "FCSE-LH1"), ("B", "FCSE-LH1")]

/-- The allocation state after processing only `exA`. -/
def exRoomA1 : List (String × String) := [("A", "FCSE-LH1")]

/-- Example course for the schedule-ordering scenario (registered first,
gets the Tuesday 08:00 slot). -/
def exD : Course := ⟨"D", "CourseD", "T1", "G1", 60, "FCSE"⟩

/-- Example course sharing teacher `T1` with `exD` (gets Monday 09:00). -/
def exE : Course := ⟨"E", "CourseE", "T1", "G2", 60, "FCSE"⟩

/-- The coloring computed for `[exD, exE]` with two slots. -/
def ex9Colors : List (String × Nat) := [("D", 0), ("E", 1)]

/-- The room allocation computed for the schedule-ordering scenario. -/
def ex9RoomA : List (String × String) := [("D", "FCSE-LH1"), ("E", "FCSE-LH1")]

/-- The schedule `optimize_schedules` produces for teacher `T1` in the
schedule-ordering scenario: Tuesday 08:00 sorted before Monday 09:00. -/
def ex9Sched : List (Course × TimeSlot × Room) :=
  [(exD, exTue8, exLH1), (exE, exMon9, exLH1)]

/-! ### Properties of the stable sorts -/

theorem perm_insertDescBy (key : α → Nat) (v : α) (l : List α) :
    (insertDescBy key v l).Perm (v :: l) := by
  induction l with
  | nil => simp [insertDescBy]
  | cons w ws ih =>
    by_cases h : key w ≤ key v
    · simp [insertDescBy, h]
    · simp only [insertDescBy, if_neg h]
      exact (ih.cons w).trans (List.Perm.swap v w ws)

theorem perm_sortDescBy (key : α → Nat) (l : List α) :
    (sortDescBy key l).Perm l := by
  induction l with
  | nil => simp [sortDescBy]
  | cons v vs ih =>
    exact (perm_insertDescBy key v (sortDescBy key vs)).trans (ih.cons v)

theorem mem_insertDescBy {key : α → Nat} {v x : α} {l : List α} :
    x ∈ insertDescBy key v l ↔ x = v ∨ x ∈ l := by
  rw [(perm_insertDescBy key v l).mem_iff, List.mem_cons]

theorem pairwise_insertDescBy {key : α → Nat} {v : α} {l : List α}
    (h : l.Pairwise (fun a b => key b ≤ key a)) :
    (insertDescBy key v l).Pairwise (fun a b => key b ≤ key a) := by
  induction l with
  | nil => simp [insertDescBy]
  | cons w ws ih =>
    rcases List.pairwise_cons.mp h with ⟨hw, hws⟩
    by_cases hle : key w ≤ key v
    · simp only [insertDescBy, if_pos hle]
      refine List.pairwise_cons.mpr ⟨?_, h⟩
      intro x hx
      rcases List.mem_cons.mp hx with rfl | hx
      · exact hle
      · exact le_trans (hw x hx) hle
    · simp only [insertDescBy, if_neg hle]
      refine List.pairwise_cons.mpr ⟨?_, ih hws⟩
      intro x hx
      rcases mem_insertDescBy.mp hx with rfl | hx
      · exact le_of_lt (Nat.lt_of_not_le hle)
      · exact hw x hx

theorem pairwise_sortDescBy (key : α → Nat) (l : List α) :
    (sortDescBy key l).Pairwise (fun a b => key b ≤ key a) := by
  induction l with
  | nil => simp [sortDescBy]
  | cons v vs ih => exact pairwise_insertDescBy ih

theorem filter_insertDescBy (key : α → Nat) (v : α) (l : List α) (d : Nat) :
    (insertDescBy key v l).filter (fun x => key x == d) =
      if key v == d then v :: l.filter (fun x => key x == d)
      else l.filter (fun x => key x == d) := by
  induction l with
  | nil => simp only [insertDescBy, List.filter_cons, List.filter_nil]
  | cons w ws ih =>
    by_cases hle : key w ≤ key v
    · simp only [insertDescBy, if_pos hle, List.filter_cons]
    · have hlt : key v < key w := Nat.lt_of_not_le hle
      simp only [insertDescBy, if_neg hle, List.filter_cons, ih]
      by_cases hv : key v = d
      · have hpv : (key v == d) = true := beq_iff_eq.mpr hv
        have hpw : (key w == d) = false := beq_eq_false_iff_ne.mpr (by omega)
        simp [hpv, hpw]
      · have hpv : (key v == d) = false := beq_eq_false_iff_ne.mpr hv
        simp [hpv]

theorem filter_sortDescBy (key : α → Nat) (l : List α) (d : Nat) :
    (sortDescBy key l).filter (fun x => key x == d) =
      l.filter (fun x => key x == d) := by
  induction l with
  | nil => simp [sortDescBy]
  | cons v vs ih =>
    simp only [sortDescBy, filter_insertDescBy, List.filter_cons, ih]

theorem perm_insertAscBy (key : α → Nat) (v : α) (l : List α) :
    (insertAscBy key v l).Perm (v :: l) := by
  induction l with
  | nil => simp [insertAscBy]
  | cons w ws ih =>
    by_cases h : key v ≤ key w
    · simp [insertAscBy, h]
    · simp only [insertAscBy, if_neg h]
      exact (ih.cons w).trans (List.Perm.swap v w ws)

theorem perm_sortAscBy (key : α → Nat) (l : List α) :
    (sortAscBy key l).Perm l := by
  induction l with
  | nil => simp [sortAscBy]
  | cons v vs ih =>
    exact (perm_insertAscBy key v (sortAscBy key vs)).trans (ih.cons v)

theorem mem_insertAscBy {key : α → Nat} {v x : α} {l : List α} :
    x ∈ insertAscBy key v l ↔ x = v ∨ x ∈ l := by
  rw [(perm_insertAscBy key v l).mem_iff, List.mem_cons]

theorem pairwise_insertAscBy {key : α → Nat} {v : α} {l : List α}
    (h : l.Pairwise (fun a b => key a ≤ key b)) :
    (insertAscBy key v l).Pairwise (fun a b => key a ≤ key b) := by
  induction l with
  | nil => simp [insertAscBy]
  | cons w ws ih =>
    rcases List.pairwise_cons.mp h with ⟨hw, hws⟩
    by_cases hle : key v ≤ key w
    · simp only [insertAscBy, if_pos hle]
      refine List.pairwise_cons.mpr ⟨?_, h⟩
      intro x hx
      rcases List.mem_cons.mp hx with rfl | hx
      · exact hle
      · exact le_trans hle (hw x hx)
    · simp only [insertAscBy, if_neg hle]
      refine List.pairwise_cons.mpr ⟨?_, ih hws⟩
      intro x hx
      rcases mem_insertAscBy.mp hx with rfl | hx
      · exact le_of_lt (Nat.lt_of_not_le hle)
      · exact hw x hx

theorem pairwise_sortAscBy (key : α → Nat) (l : List α) :
    (sortAscBy key l).Pairwise (fun a b => key a ≤ key b) := by
  induction l with
  | nil => simp [sortAscBy]
  | cons v vs ih => exact pairwise_insertAscBy ih

theorem filter_insertAscBy (key : α → Nat) (v : α) (l : List α) (d : Nat) :
    (insertAscBy key v l).filter (fun x => key x == d) =
      if key v == d then v :: l.filter (fun x => key x == d)
      else l.filter (fun x => key x == d) := by
  induction l with
  | nil => simp only [insertAscBy, List.filter_cons, List.filter_nil]
  | cons w ws ih =>
    by_cases hle : key v ≤ key w
    · simp only [insertAscBy, if_pos hle, List.filter_cons]
    · have hlt : key w < key v := Nat.lt_of_not_le hle
      simp only [insertAscBy, if_neg hle, List.filter_cons, ih]
      by_cases hv : key v = d
      · have hpv : (key v == d) = true := beq_iff_eq.mpr hv
        have hpw : (key w == d) = false := beq_eq_false_iff_ne.mpr (by omega)
        simp [hpv, hpw]
      · have hpv : (key v == d) = false := beq_eq_false_iff_ne.mpr hv
        simp [hpv]

theorem filter_sortAscBy (key : α → Nat) (l : List α) (d : Nat) :
    (sortAscBy key l).filter (fun x => key x == d) =
      l.filter (fun x => key x == d) := by
  induction l with
  | nil => simp [sortAscBy]
  | cons v vs ih =>
    simp only [sortAscBy, filter_insertAscBy, List.filter_cons, ih]

/-! ### Properties of the greedy coloring loop -/

theorem find?_range'_some {p : Nat → Bool} :
    ∀ (n s c : Nat), (List.range' s n).find? p = some c →
      p c = true ∧ s ≤ c ∧ c < s + n ∧ ∀ e, s ≤ e → e < c → p e = false := by
  intro n
  induction n with
  | zero => intro s c h; simp at h
  | succ n ih =>
    intro s c h
    rw [List.range'_succ, List.find?_cons] at h
    rcases hps : p s with _ | _
    · rw [hps] at h
      simp only at h
      rcases ih (s + 1) c h with ⟨h1, h2, h3, h4⟩
      refine ⟨h1, by omega, by omega, ?_⟩
      intro e he1 he2
      rcases Nat.eq_or_lt_of_le he1 with rfl | hlt
      · exact hps
      · exact h4 e hlt he2
    · rw [hps] at h
      simp only [Option.some.injEq] at h
      subst h
      exact ⟨hps, Nat.le_refl _, by omega, fun e he1 he2 => absurd he1 (by omega)⟩

theorem firstFree_some {T : Nat} {used : List Nat} {c : Nat}
    (h : firstFree T used = some c) :
    c < T ∧ used.contains c = false ∧ ∀ e, e < c → used.contains e = true := by
  unfold firstFree at h
  rw [List.range_eq_range'] at h
  rcases find?_range'_some T 0 c h with ⟨h1, _, h3, h4⟩
  refine ⟨by omega, by simpa using h1, ?_⟩
  intro e he
  have := h4 e (Nat.zero_le e) he
  simpa using this

theorem greedy_fst {adj : String → String → Bool} {T : Nat} :
    ∀ (vs : List String) (acc res : List (String × Nat)),
      greedyColor adj T vs acc = some res →
      res.map Prod.fst = acc.map Prod.fst ++ vs := by
  intro vs
  induction vs with
  | nil =>
    intro acc res h
    simp only [greedyColor, Option.some.injEq] at h
    subst h; simp
  | cons v vs ih =>
    intro acc res h
    simp only [greedyColor] at h
    rcases hff : firstFree T (usedColors adj v acc) with _ | c
    · rw [hff] at h; simp at h
    · rw [hff] at h
      have := ih (acc ++ [(v, c)]) res h
      simpa using this

theorem greedy_shape {adj : String → String → Bool} {T : Nat} :
    ∀ (vs : List String) (acc res : List (String × Nat)),
      greedyColor adj T vs acc = some res →
      ∃ ext, res = acc ++ ext := by
  intro vs
  induction vs with
  | nil =>
    intro acc res h
    simp only [greedyColor, Option.some.injEq] at h
    exact ⟨[], by simp [h.symm]⟩
  | cons v vs ih =>
    intro acc res h
    simp only [greedyColor] at h
    rcases hff : firstFree T (usedColors adj v acc) with _ | c
    · rw [hff] at h; simp at h
    · rw [hff] at h
      rcases ih (acc ++ [(v, c)]) res h with ⟨ext, hext⟩
      exact ⟨(v, c) :: ext, by simp [hext]⟩

theorem greedy_ok {adj : String → String → Bool} {T : Nat} :
    ∀ (vs : List String) (acc res : List (String × Nat)),
      greedyColor adj T vs acc = some res →
      ∀ i, acc.length ≤ i → ∀ hi : i < res.length, GreedyStep adj T res i hi := by
  intro vs
  induction vs with
  | nil =>
    intro acc res h i hacc hi
    simp only [greedyColor, Option.some.injEq] at h
    subst h
    omega
  | cons v vs ih =>
    intro acc res h i hacc hi
    simp only [greedyColor] at h
    rcases hff : firstFree T (usedColors adj v acc) with _ | c
    · rw [hff] at h; simp at h
    · rw [hff] at h
      rcases Nat.eq_or_lt_of_le hacc with heq | hlt
    -- i = acc.length: this is the step that chose (v, c)
      · rcases greedy_shape vs (acc ++ [(v, c)]) res h with ⟨ext, rfl⟩
        subst heq
        have hget? : ((acc ++ [(v, c)]) ++ ext)[acc.length]? = some (v, c) := by
          rw [List.append_assoc, List.getElem?_append_right (Nat.le_refl _)]
          simp
        have hget : ((acc ++ [(v, c)]) ++ ext).get ⟨acc.length, hi⟩ = (v, c) := by
          rw [List.getElem?_eq_getElem hi] at hget?
          rw [List.get_eq_getElem]
          exact Option.some.inj hget?
        have htake : ((acc ++ [(v, c)]) ++ ext).take acc.length = acc := by
          rw [List.append_assoc, List.take_left]
        rcases firstFree_some hff with ⟨h1, h2, h3⟩
        refine ⟨?_, ?_, ?_⟩
        · rw [hget]; exact h1
        · rw [hget, htake]; exact h2
        · intro e he
          rw [hget] at he ⊢
          rw [htake]
          exact h3 e he
      · exact ih (acc ++ [(v, c)]) res h i (by simpa using hlt) hi

theorem greedy_proper {adj : String → String → Bool} {T : Nat}
    (hsym : ∀ a b, adj a b = adj b a) :
    ∀ (vs : List String) (acc res : List (String × Nat)),
      greedyColor adj T vs acc = some res → Proper adj acc → Proper adj res := by
  intro vs
  induction vs with
  | nil =>
    intro acc res h hp
    simp only [greedyColor, Option.some.injEq] at h
    subst h; exact hp
  | cons v vs ih =>
    intro acc res h hp
    simp only [greedyColor] at h
    rcases hff : firstFree T (usedColors adj v acc) with _ | c
    · rw [hff] at h; simp at h
    · rw [hff] at h
      refine ih (acc ++ [(v, c)]) res h ?_
      rcases firstFree_some hff with ⟨_, hfree, _⟩
      have hnotused : ∀ p ∈ acc, adj v p.1 = true → p.2 ≠ c := by
        intro p hpmem hadj hcol
        have hmem : c ∈ usedColors adj v acc := by
          unfold usedColors
          rw [List.mem_filterMap]
          exact ⟨p, hpmem, by rw [hadj]; simp [hcol]⟩
        have hcont : (usedColors adj v acc).contains c = true :=
          List.elem_iff.mpr hmem
        rw [hfree] at hcont
        exact Bool.false_ne_true hcont
      intro p hpmem q hqmem hne hadj
      rcases List.mem_append.mp hpmem with hp1 | hp1 <;>
        rcases List.mem_append.mp hqmem with hq1 | hq1
      · exact hp p hp1 q hq1 hne hadj
      · have hq : q = (v, c) := by simpa using hq1
        subst hq
        exact fun hcol => hnotused p hp1 (by rw [← hsym]; exact hadj) hcol
      · have hpv : p = (v, c) := by simpa using hp1
        subst hpv
        intro hcol
        exact hnotused q hq1 hadj hcol.symm
      · have hpv : p = (v, c) := by simpa using hp1
        have hq : q = (v, c) := by simpa using hq1
        subst hpv; subst hq
        exact absurd rfl hne

/-! ### Properties of the conflict graph -/

theorem courseConflict_symm (c1 c2 : Course) :
    courseConflict c1 c2 = courseConflict c2 c1 := by
  unfold courseConflict
  rw [Bool.beq_comm (a := c1.teacher), Bool.beq_comm (a := c1.student_group)]

theorem adjacent_symm (courses : List Course) (a b : String) :
    adjacent courses a b = adjacent courses b a := by
  rw [Bool.eq_iff_iff]
  unfold adjacent
  rw [List.any_eq_true, List.any_eq_true]
  constructor <;>
    · rintro ⟨e, he, hp⟩
      exact ⟨e, he, by rw [Bool.or_comm] at hp; exact hp⟩

/-- Membership in one orientation of the edge list yields adjacency. -/
theorem adjacent_of_mem_buildEdges {courses : List Course} {x y a b : String}
    (hmem : (x, y) ∈ buildEdges courses)
    (hor : (x = a ∧ y = b) ∨ (x = b ∧ y = a)) :
    adjacent courses a b = true := by
  unfold adjacent
  rw [List.any_eq_true]
  refine ⟨(x, y), hmem, ?_⟩
  rcases hor with ⟨rfl, rfl⟩ | ⟨rfl, rfl⟩ <;> simp

/-- Two distinct-id conflicting courses of the list are adjacent. -/
theorem adjacent_of (courses : List Course) (c1 c2 : Course)
    (h1 : c1 ∈ courses) (h2 : c2 ∈ courses) (hne : c1.id ≠ c2.id)
    (hc : courseConflict c1 c2 = true) :
    adjacent courses c1.id c2.id = true := by
  induction courses with
  | nil => cases h1
  | cons c rest ih =>
    have hstep : ∀ d1 d2 : Course, d1 = c → d2 ∈ rest →
        courseConflict d1 d2 = true → (d1.id, d2.id) ∈ buildEdges (c :: rest) := by
      rintro d1 d2 rfl hd2 hcc
      unfold buildEdges
      rw [List.mem_append]
      left
      rw [List.mem_map]
      exact ⟨d2, List.mem_filter.mpr ⟨hd2, hcc⟩, rfl⟩
    have hsub : adjacent rest c1.id c2.id = true → adjacent (c :: rest) c1.id c2.id = true := by
      intro h
      unfold adjacent at h ⊢
      rw [List.any_eq_true] at h ⊢
      rcases h with ⟨e, he, hp⟩
      refine ⟨e, ?_, hp⟩
      unfold buildEdges
      rw [List.mem_append]
      exact Or.inr he
    rcases List.mem_cons.mp h1 with rfl | h1' <;>
      rcases List.mem_cons.mp h2 with heq2 | h2'
    · exact absurd (congrArg Course.id heq2.symm) hne
    · exact adjacent_of_mem_buildEdges (hstep c1 c2 rfl h2' hc) (Or.inl ⟨rfl, rfl⟩)
    · subst heq2
      exact adjacent_of_mem_buildEdges
        (hstep c2 c1 rfl h1' (by rw [courseConflict_symm]; exact hc))
        (Or.inr ⟨rfl, rfl⟩)
    · exact hsub (ih h1' h2')

/-- Characterization of edge membership under unique course ids. -/
theorem mem_buildEdges_elim {courses : List Course} {x y : String}
    (hids : (courses.map Course.id).Nodup)
    (hmem : (x, y) ∈ buildEdges courses) :
    ∃ c1 ∈ courses, ∃ c2 ∈ courses,
      c1.id = x ∧ c2.id = y ∧ c1.id ≠ c2.id ∧ courseConflict c1 c2 = true := by
  induction courses with
  | nil => cases hmem
  | cons c rest ih =>
    rw [List.map_cons, List.nodup_cons] at hids
    rcases hids with ⟨hnotin, hrest⟩
    unfold buildEdges at hmem
    rcases List.mem_append.mp hmem with hhead | htail
    · rw [List.mem_map] at hhead
      rcases hhead with ⟨c2, hc2, heq⟩
      rcases List.mem_filter.mp hc2 with ⟨hc2rest, hcc⟩
      injection heq with hx hy
      refine ⟨c, List.mem_cons_self c rest, c2, List.mem_cons_of_mem c hc2rest,
        hx, hy, ?_, hcc⟩
      intro hid
      exact hnotin (hid ▸ List.mem_map_of_mem Course.id hc2rest)
    · rcases ih hrest htail with ⟨c1, hc1, c2, hc2, h3, h4, h5, h6⟩
      exact ⟨c1, List.mem_cons_of_mem c hc1, c2, List.mem_cons_of_mem c hc2,
        h3, h4, h5, h6⟩

/-- Full characterization of adjacency under unique course ids. -/
theorem adjacent_true_iff {courses : List Course} {a b : String}
    (hids : (courses.map Course.id).Nodup) :
    adjacent courses a b = true ↔
      ∃ c1 ∈ courses, ∃ c2 ∈ courses,
        c1.id = a ∧ c2.id = b ∧ c1.id ≠ c2.id ∧ courseConflict c1 c2 = true := by
  constructor
  · intro h
    unfold adjacent at h
    rw [List.any_eq_true] at h
    rcases h with ⟨e, he, hp⟩
    rcases e with ⟨x, y⟩
    rcases mem_buildEdges_elim hids he with ⟨c1, hc1, c2, hc2, rfl, rfl, h5, h6⟩
    rw [Bool.or_eq_true, Bool.and_eq_true, Bool.and_eq_true] at hp
    simp only [beq_iff_eq] at hp
    rcases hp with ⟨rfl, rfl⟩ | ⟨rfl, rfl⟩
    · exact ⟨c1, hc1, c2, hc2, rfl, rfl, h5, h6⟩
    · exact ⟨c2, hc2, c1, hc1, rfl, rfl, Ne.symm h5,
        by rw [courseConflict_symm]; exact h6⟩
  · rintro ⟨c1, hc1, c2, hc2, rfl, rfl, h5, h6⟩
    exact adjacent_of courses c1 c2 hc1 hc2 h5 h6

/-! ### Properties of dict insertion -/

theorem lookup_dictInsert_self (k v : String) (l : List (String × String)) :
    (dictInsert k v l).lookup k = some v := by
  induction l with
  | nil => simp [dictInsert, List.lookup]
  | cons p rest ih =>
    rcases p with ⟨k', v'⟩
    by_cases h : k' = k
    · subst h
      simp [dictInsert, List.lookup]
    · have hb : (k' == k) = false := beq_eq_false_iff_ne.mpr h
      have hb' : (k == k') = false := beq_eq_false_iff_ne.mpr (Ne.symm h)
      simp [dictInsert, hb, List.lookup, hb', ih]

theorem lookup_dictInsert_ne {k k' : String} (hne : k' ≠ k) (v : String)
    (l : List (String × String)) :
    (dictInsert k v l).lookup k' = l.lookup k' := by
  have hbk : (k' == k) = false := beq_eq_false_iff_ne.mpr hne
  induction l with
  | nil => simp [dictInsert, List.lookup, hbk]
  | cons p rest ih =>
    rcases p with ⟨a, b⟩
    by_cases ha : a = k
    · subst ha
      simp [dictInsert, List.lookup, hbk]
    · have hba : (a == k) = false := beq_eq_false_iff_ne.mpr ha
      by_cases hka : k' = a
      · subst hka
        simp [dictInsert, hba, List.lookup]
      · have hbka : (k' == a) = false := beq_eq_false_iff_ne.mpr hka
        simp [dictInsert, hba, List.lookup, hbka, ih]

theorem mem_keys_dictInsert {x k v : String} {l : List (String × String)} :
    x ∈ (dictInsert k v l).map Prod.fst ↔ x = k ∨ x ∈ l.map Prod.fst := by
  induction l with
  | nil => simp [dictInsert]
  | cons p rest ih =>
    rcases p with ⟨a, b⟩
    by_cases ha : a = k
    · subst ha
      simp only [dictInsert, beq_self_eq_true, if_true, List.map_cons,
        List.mem_cons]
      tauto
    · have hba : (a == k) = false := beq_eq_false_iff_ne.mpr ha
      simp only [dictInsert, hba, Bool.false_eq_true, if_false, List.map_cons,
        List.mem_cons, ih]
      tauto

theorem keyNodup_dictInsert {k v : String} {l : List (String × String)}
    (h : KeyNodup l) : KeyNodup (dictInsert k v l) := by
  induction l with
  | nil => simp [dictInsert, KeyNodup]
  | cons p rest ih =>
    rcases p with ⟨a, b⟩
    unfold KeyNodup at h
    rw [List.map_cons, List.nodup_cons] at h
    rcases h with ⟨hnotin, hrest⟩
    by_cases ha : a = k
    · subst ha
      unfold KeyNodup
      simp only [dictInsert, beq_self_eq_true, if_true, List.map_cons,
        List.nodup_cons]
      exact ⟨hnotin, hrest⟩
    · have hba : (a == k) = false := beq_eq_false_iff_ne.mpr ha
      unfold KeyNodup
      simp only [dictInsert, hba, Bool.false_eq_true, if_false, List.map_cons,
        List.nodup_cons]
      refine ⟨?_, ih hrest⟩
      rw [mem_keys_dictInsert]
      rintro (rfl | hmem)
      · exact ha rfl
      · exact hnotin hmem

theorem mem_dictInsert_elim {q : String × String} {k v : String}
    {l : List (String × String)} (hkn : KeyNodup l) (h : q ∈ dictInsert k v l) :
    q = (k, v) ∨ (q ∈ l ∧ q.1 ≠ k) := by
  induction l with
  | nil =>
    simp only [dictInsert, List.mem_singleton] at h
    exact Or.inl h
  | cons p rest ih =>
    rcases p with ⟨a, b⟩
    unfold KeyNodup at hkn
    rw [List.map_cons, List.nodup_cons] at hkn
    rcases hkn with ⟨hnotin, hrest⟩
    by_cases ha : a = k
    · subst ha
      simp only [dictInsert, beq_self_eq_true, if_true, List.mem_cons] at h
      rcases h with rfl | hmem
      · exact Or.inl rfl
      · refine Or.inr ⟨List.mem_cons_of_mem _ hmem, ?_⟩
        intro heq
        have hq1 := List.mem_map_of_mem Prod.fst hmem
        rw [heq] at hq1
        exact hnotin hq1
    · have hba : (a == k) = false := beq_eq_false_iff_ne.mpr ha
      simp only [dictInsert, hba, Bool.false_eq_true, if_false,
        List.mem_cons] at h
      rcases h with rfl | hmem
      · exact Or.inr ⟨List.mem_cons_self _ _, ha⟩
      · rcases ih hrest hmem with heq | ⟨hmem', hne⟩
        · exact Or.inl heq
        · exact Or.inr ⟨List.mem_cons_of_mem _ hmem', hne⟩

/-! ### Properties of the room availability scan -/

theorem overlap_symm (s1 s2 : TimeSlot) :
    _time_slots_overlap s1 s2 = _time_slots_overlap s2 s1 := by
  unfold _time_slots_overlap
  rw [Bool.eq_iff_iff]
  simp only [Bool.and_eq_true, beq_iff_eq, decide_eq_true_eq]
  constructor <;> rintro ⟨⟨h1, h2⟩, h3⟩ <;> exact ⟨⟨h1.symm, h3⟩, h2⟩

theorem avail_true_no_overlap {colorA : List (String × Nat)}
    {slots : List TimeSlot} :
    ∀ (roomA : List (String × String)) (rid : String) (slot : TimeSlot),
      _is_room_available colorA slots roomA rid slot = some true →
      ∀ p ∈ roomA, p.2 = rid →
        ∃ s, slotOf colorA slots p.1 = some s ∧
          _time_slots_overlap slot s = false := by
  intro roomA
  induction roomA with
  | nil => intro rid slot h p hp; cases hp
  | cons q rest ih =>
    intro rid slot h p hp
    rcases q with ⟨cid, rid'⟩
    simp only [_is_room_available] at h
    by_cases hr : rid' = rid
    · have hb : (rid' == rid) = true := beq_iff_eq.mpr hr
      rw [hb] at h
      simp only [if_true] at h
      rcases hs : slotOf colorA slots cid with _ | s
      · simp only [hs] at h
        exact Option.noConfusion h
      · simp only [hs] at h
        rcases hov : _time_slots_overlap slot s with _ | _
        · rw [hov] at h
          simp only [Bool.false_eq_true, if_false] at h
          rcases List.mem_cons.mp hp with rfl | hp'
          · intro _; exact ⟨s, hs, hov⟩
          · exact ih rid slot h p hp'
        · rw [hov] at h
          simp only [if_true] at h
          cases h
    · have hb : (rid' == rid) = false := beq_eq_false_iff_ne.mpr hr
      rw [hb] at h
      simp only [Bool.false_eq_true, if_false] at h
      rcases List.mem_cons.mp hp with rfl | hp'
      · intro hp2; exact absurd hp2 hr
      · exact ih rid slot h p hp'

theorem findAvailable_none_elim {colorA : List (String × Nat)}
    {slots : List TimeSlot} {roomA : List (String × String)} {slot : TimeSlot} :
    ∀ {l : List Room}, findAvailable colorA slots roomA slot l = some none →
      ∀ r ∈ l, _is_room_available colorA slots roomA r.id slot = some false := by
  intro l
  induction l with
  | nil => intro _ r hr; cases hr
  | cons r0 rs ih =>
    intro h r hr
    simp only [findAvailable] at h
    rcases ha : _is_room_available colorA slots roomA r0.id slot with _ | b
    · rw [ha] at h; cases h
    · rw [ha] at h
      rcases b with _ | _
      · simp only at h
        rcases List.mem_cons.mp hr with rfl | hr'
        · exact ha
        · exact ih h r hr'
      · simp only at h
        cases h

theorem findAvailable_some_elim {colorA : List (String × Nat)}
    {slots : List TimeSlot} {roomA : List (String × String)} {slot : TimeSlot}
    {r : Room} :
    ∀ {l : List Room}, findAvailable colorA slots roomA slot l = some (some r) →
      r ∈ l ∧ _is_room_available colorA slots roomA r.id slot = some true := by
  intro l
  induction l with
  | nil => intro h; cases h
  | cons r0 rs ih =>
    intro h
    simp only [findAvailable] at h
    rcases ha : _is_room_available colorA slots roomA r0.id slot with _ | b
    · rw [ha] at h; cases h
    · rw [ha] at h
      rcases b with _ | _
      · simp only at h
        rcases ih h with ⟨hmem, htrue⟩
        exact ⟨List.mem_cons_of_mem _ hmem, htrue⟩
      · simp only [Option.some.injEq, Option.some.injEq] at h
        subst h
        exact ⟨List.mem_cons_self _ _, ha⟩

theorem tryTiers_none_elim {colorA : List (String × Nat)}
    {slots : List TimeSlot} {roomA : List (String × String)} {slot : TimeSlot} :
    ∀ {ts : List (List Room)}, tryTiers colorA slots roomA slot ts = some none →
      ∀ t ∈ ts, findAvailable colorA slots roomA slot t = some none := by
  intro ts
  induction ts with
  | nil => intro _ t ht; cases ht
  | cons t0 rest ih =>
    intro h t ht
    simp only [tryTiers] at h
    rcases hf : findAvailable colorA slots roomA slot t0 with _ | o
    · rw [hf] at h; cases h
    · rw [hf] at h
      rcases o with _ | r
      · simp only at h
        rcases List.mem_cons.mp ht with rfl | ht'
        · exact hf
        · exact ih h t ht'
      · simp only [Option.some.injEq] at h
        cases h

theorem tryTiers_some_elim {colorA : List (String × Nat)}
    {slots : List TimeSlot} {roomA : List (String × String)} {slot : TimeSlot}
    {r : Room} :
    ∀ {ts : List (List Room)},
      tryTiers colorA slots roomA slot ts = some (some r) →
      ∃ t ∈ ts, r ∈ t ∧
        _is_room_available colorA slots roomA r.id slot = some true := by
  intro ts
  induction ts with
  | nil => intro h; cases h
  | cons t0 rest ih =>
    intro h
    simp only [tryTiers] at h
    rcases hf : findAvailable colorA slots roomA slot t0 with _ | o
    · rw [hf] at h; cases h
    · rw [hf] at h
      rcases o with _ | r'
      · simp only at h
        rcases ih h with ⟨t, ht, hrt, htrue⟩
        exact ⟨t, List.mem_cons_of_mem _ ht, hrt, htrue⟩
      · simp only [Option.some.injEq, Option.some.injEq] at h
        subst h
        rcases findAvailable_some_elim hf with ⟨hmem, htrue⟩
        exact ⟨t0, List.mem_cons_self _ _, hmem, htrue⟩

/-- When the head tier contains an available room and the scan does not
crash, the room found comes from the head tier. -/
theorem tryTiers_head_priority {colorA : List (String × Nat)}
    {slots : List TimeSlot} {roomA : List (String × String)} {slot : TimeSlot}
    {t0 : List Room} {rest : List (List Room)} {r0 : Room} (hr0 : r0 ∈ t0)
    (havail : _is_room_available colorA slots roomA r0.id slot = some true)
    {o : Option Room}
    (h : tryTiers colorA slots roomA slot (t0 :: rest) = some o) :
    ∃ r ∈ t0, o = some r ∧
      _is_room_available colorA slots roomA r.id slot = some true := by
  simp only [tryTiers] at h
  rcases hf : findAvailable colorA slots roomA slot t0 with _ | o'
  · rw [hf] at h; cases h
  · rw [hf] at h
    rcases o' with _ | r
    · have := findAvailable_none_elim hf r0 hr0
      rw [havail] at this
      cases this
    · simp only [Option.some.injEq] at h
      subst h
      rcases findAvailable_some_elim hf with ⟨hmem, htrue⟩
      exact ⟨r, hmem, rfl, htrue⟩

/-! ### Properties of the allocation loop -/

theorem assignCourse_elim {rooms : List Room} {colorA : List (String × Nat)}
    {slots : List TimeSlot} {roomA : List (String × String)} {c : Course}
    {roomA' : List (String × String)}
    (h : assignCourse rooms colorA slots roomA c = some roomA') :
    ∃ idx slot, colorA.lookup c.id = some idx ∧ slots[idx]? = some slot ∧
      ((tryTiers colorA slots roomA slot (tiers rooms c) = some none ∧
          roomA' = roomA) ∨
        (∃ r : Room,
          tryTiers colorA slots roomA slot (tiers rooms c) = some (some r) ∧
          roomA' = dictInsert c.id r.id roomA)) := by
  unfold assignCourse at h
  rcases hl : colorA.lookup c.id with _ | idx
  · rw [hl] at h; cases h
  · simp only [hl] at h
    rcases hs : slots[idx]? with _ | slot
    · simp only [hs] at h
      exact Option.noConfusion h
    · simp only [hs] at h
      rcases ht : tryTiers colorA slots roomA slot (tiers rooms c) with _ | o
      · simp only [ht] at h
        exact Option.noConfusion h
      · simp only [ht] at h
        rcases o with _ | r
        · simp only [Option.some.injEq] at h
          exact ⟨idx, slot, rfl, hs, Or.inl ⟨ht, h.symm⟩⟩
        · simp only [Option.some.injEq] at h
          exact ⟨idx, slot, rfl, hs, Or.inr ⟨r, ht, h.symm⟩⟩

theorem slotOf_of_lookup {colorA : List (String × Nat)} {slots : List TimeSlot}
    {cid : String} {idx : Nat} {slot : TimeSlot}
    (hl : colorA.lookup cid = some idx) (hs : slots[idx]? = some slot) :
    slotOf colorA slots cid = some slot := by
  unfold slotOf
  simp only [hl]
  exact hs

theorem assign_rooms_append (rooms : List Room) (colorA : List (String × Nat))
    (slots : List TimeSlot) :
    ∀ (xs ys : List Course) (roomA : List (String × String)),
      assign_rooms rooms colorA slots (xs ++ ys) roomA =
        match assign_rooms rooms colorA slots xs roomA with
        | none => none
        | some b => assign_rooms rooms colorA slots ys b := by
  intro xs
  induction xs with
  | nil => intro ys roomA; simp [assign_rooms]
  | cons x xs ih =>
    intro ys roomA
    simp only [List.cons_append, assign_rooms]
    rcases assignCourse rooms colorA slots roomA x with _ | roomA'
    · simp
    · simp only
      exact ih ys roomA'

theorem assign_rooms_lookup_of_not_mem {rooms : List Room}
    {colorA : List (String × Nat)} {slots : List TimeSlot} {k : String} :
    ∀ {cs : List Course} {roomA final : List (String × String)},
      k ∉ cs.map Course.id →
      assign_rooms rooms colorA slots cs roomA = some final →
      final.lookup k = roomA.lookup k := by
  intro cs
  induction cs with
  | nil =>
    intro roomA final _ h
    simp only [assign_rooms, Option.some.injEq] at h
    rw [h]
  | cons c rest ih =>
    intro roomA final hk h
    rw [List.map_cons, List.mem_cons] at hk
    push_neg at hk
    rcases hk with ⟨hkc, hkrest⟩
    simp only [assign_rooms] at h
    rcases ha : assignCourse rooms colorA slots roomA c with _ | roomA'
    · rw [ha] at h; cases h
    · rw [ha] at h
      rcases assignCourse_elim ha with ⟨idx, slot, _, _, hcase⟩
      rcases hcase with ⟨_, rfl⟩ | ⟨r, _, rfl⟩
      · exact ih hkrest h
      · rw [ih hkrest h]
        exact lookup_dictInsert_ne hkc r.id roomA

/-- The allocation loop preserves the room invariant. -/
theorem roomInv_assignCourse {rooms : List Room} {colorA : List (String × Nat)}
    {slots : List TimeSlot} {roomA : List (String × String)} {c : Course}
    {roomA' : List (String × String)} (hinv : RoomInv colorA slots roomA)
    (h : assignCourse rooms colorA slots roomA c = some roomA') :
    RoomInv colorA slots roomA' := by
  rcases assignCourse_elim h with ⟨idx, slot, hl, hs, hcase⟩
  rcases hcase with ⟨_, rfl⟩ | ⟨r, htry, rfl⟩
  · exact hinv
  · rcases hinv with ⟨hkn, hslots, hov⟩
    have hcslot : slotOf colorA slots c.id = some slot := slotOf_of_lookup hl hs
    rcases tryTiers_some_elim htry with ⟨t, _, _, htrue⟩
    refine ⟨keyNodup_dictInsert hkn, ?_, ?_⟩
    · intro p hp
      rcases mem_dictInsert_elim hkn hp with rfl | ⟨hp', _⟩
      · exact ⟨slot, hcslot⟩
      · exact hslots p hp'
    · intro p hp q hq hne hroom s1 s2 hs1 hs2
      rcases mem_dictInsert_elim hkn hp with rfl | ⟨hp', hpne⟩ <;>
        rcases mem_dictInsert_elim hkn hq with rfl | ⟨hq', hqne⟩
      · exact absurd rfl hne
      · -- p is the new entry, q is an old occupant of the same room
        have hq2 : q.2 = r.id := hroom.symm
        rcases avail_true_no_overlap roomA r.id slot htrue q hq' hq2 with
          ⟨s, hsq, hno⟩
        rw [hcslot] at hs1
        injection hs1 with hs1
        rw [hsq] at hs2
        injection hs2 with hs2
        subst hs1; subst hs2
        exact hno
      · -- q is the new entry, p is an old occupant of the same room
        have hp2 : p.2 = r.id := hroom
        rcases avail_true_no_overlap roomA r.id slot htrue p hp' hp2 with
          ⟨s, hsp, hno⟩
        rw [hcslot] at hs2
        injection hs2 with hs2
        rw [hsp] at hs1
        injection hs1 with hs1
        subst hs1; subst hs2
        rw [overlap_symm]
        exact hno
      · exact hov p hp' q hq' hne hroom s1 s2 hs1 hs2

theorem roomInv_assign_rooms {rooms : List Room} {colorA : List (String × Nat)}
    {slots : List TimeSlot} :
    ∀ {cs : List Course} {roomA final : List (String × String)},
      RoomInv colorA slots roomA →
      assign_rooms rooms colorA slots cs roomA = some final →
      RoomInv colorA slots final := by
  intro cs
  induction cs with
  | nil =>
    intro roomA final hinv h
    simp only [assign_rooms, Option.some.injEq] at h
    rw [← h]; exact hinv
  | cons c rest ih =>
    intro roomA final hinv h
    simp only [assign_rooms] at h
    rcases ha : assignCourse rooms colorA slots roomA c with _ | roomA'
    · rw [ha] at h; cases h
    · rw [ha] at h
      exact ih (roomInv_assignCourse hinv ha) h

theorem roomInv_empty (colorA : List (String × Nat)) (slots : List TimeSlot) :
    RoomInv colorA slots [] := by
  refine ⟨List.nodup_nil, ?_, ?_⟩ <;> intro p hp <;> cases hp

/-- Entries of the allocation map always reference colored courses. -/
theorem assign_rooms_colored {rooms : List Room} {colorA : List (String × Nat)}
    {slots : List TimeSlot} :
    ∀ {cs : List Course} {roomA final : List (String × String)},
      (∀ k r, roomA.lookup k = some r → ∃ n, colorA.lookup k = some n) →
      assign_rooms rooms colorA slots cs roomA = some final →
      ∀ k r, final.lookup k = some r → ∃ n, colorA.lookup k = some n := by
  intro cs
  induction cs with
  | nil =>
    intro roomA final hcol h
    simp only [assign_rooms, Option.some.injEq] at h
    rw [← h]; exact hcol
  | cons c rest ih =>
    intro roomA final hcol h
    simp only [assign_rooms] at h
    rcases ha : assignCourse rooms colorA slots roomA c with _ | roomA'
    · rw [ha] at h; cases h
    · rw [ha] at h
      rcases assignCourse_elim ha with ⟨idx, slot, hl, _, hcase⟩
      rcases hcase with ⟨_, rfl⟩ | ⟨r, _, rfl⟩
      · exact ih hcol h
      · refine ih ?_ h
        intro k r' hk
        by_cases hkc : k = c.id
        · subst hkc
          exact ⟨idx, hl⟩
        · rw [lookup_dictInsert_ne hkc r.id roomA] at hk
          exact hcol k r' hk

/-! ### Properties of the schedule compilation -/

theorem scheduleEntry_some_elim {slots : List TimeSlot} {rooms : List Room}
    {colorA : List (String × Nat)} {roomA : List (String × String)}
    {c : Course} {e : Course × TimeSlot × Room}
    (h : scheduleEntry slots rooms colorA roomA c = some (some e)) :
    e.1 = c ∧ ∃ rid, roomA.lookup c.id = some rid := by
  unfold scheduleEntry at h
  rcases hr : roomA.lookup c.id with _ | rid
  · simp only [hr] at h
    exact Option.noConfusion (Option.some.inj h)
  · simp only [hr] at h
    rcases hl : colorA.lookup c.id with _ | idx
    · simp only [hl] at h
      exact Option.noConfusion h
    · simp only [hl] at h
      rcases hs : slots[idx]? with _ | slot
      · simp only [hs] at h
        exact Option.noConfusion h
      · simp only [hs] at h
        rcases hf : rooms.find? (fun r => r.id == rid) with _ | room
        · simp only [hf] at h
          exact Option.noConfusion h
        · simp only [hf, Option.some.injEq] at h
          rw [← h]
          exact ⟨rfl, rid, rfl⟩

theorem build_entries_room {slots : List TimeSlot} {rooms : List Room}
    {colorA : List (String × Nat)} {roomA : List (String × String)} :
    ∀ {cs : List Course} {es : List (Course × TimeSlot × Room)},
      build_schedule_entries slots rooms colorA roomA cs = some es →
      ∀ e ∈ es, ∃ rid, roomA.lookup e.1.id = some rid := by
  intro cs
  induction cs with
  | nil =>
    intro es h e he
    simp only [build_schedule_entries, Option.some.injEq] at h
    rw [← h] at he
    cases he
  | cons c rest ih =>
    intro es h e he
    simp only [build_schedule_entries] at h
    rcases hse : scheduleEntry slots rooms colorA roomA c with _ | o
    · simp only [hse] at h
      exact Option.noConfusion h
    · rcases o with _ | e0
      · simp only [hse] at h
        exact ih h e he
      · simp only [hse] at h
        rcases hrest : build_schedule_entries slots rooms colorA roomA rest with
          _ | es0
        · simp only [hrest] at h
          exact Option.noConfusion h
        · rw [hrest] at h
          simp only [Option.map] at h
          simp only [Option.some.injEq] at h
          rw [← h] at he
          rcases List.mem_cons.mp he with rfl | he0
          · rcases scheduleEntry_some_elim hse with ⟨he1, hrid⟩
            rw [he1]
            exact hrid
          · exact ih hrest e he0

/-! ### Claim theorems -/

/-- Claim C1: for every pair of distinct courses that share a teacher or a
student group, once the coloring stage completes, the two courses' assigned
time-slot indices differ (course ids are unique per the input contract). -/
theorem C1_conflicting_courses_distinct_slots
    (courses : List Course) (T : Nat) (f : List (String × Nat))
    (hids : (courses.map Course.id).Nodup)
    (h : welsh_powell_coloring courses T = some f)
    (c1 c2 : Course) (h1 : c1 ∈ courses) (h2 : c2 ∈ courses) (hne : c1 ≠ c2)
    (hc : courseConflict c1 c2 = true) :
    (∃ n1, (c1.id, n1) ∈ f) ∧ (∃ n2, (c2.id, n2) ∈ f) ∧
      ∀ n1 n2, (c1.id, n1) ∈ f → (c2.id, n2) ∈ f → n1 ≠ n2 := by
  have hidne : c1.id ≠ c2.id := fun heq =>
    hne (List.inj_on_of_nodup_map hids h1 h2 heq)
  have hfst : f.map Prod.fst = wpOrder courses := by
    have := greedy_fst (wpOrder courses) [] f h
    simpa using this
  have hmemf : ∀ c : Course, c ∈ courses → ∃ n, (c.id, n) ∈ f := by
    intro c hcmem
    have : c.id ∈ f.map Prod.fst := by
      rw [hfst]
      exact (perm_sortDescBy (degree courses) (courses.map Course.id)).mem_iff.mpr
        (List.mem_map_of_mem Course.id hcmem)
    rcases List.mem_map.mp this with ⟨p, hp, hpeq⟩
    exact ⟨p.2, by rw [← hpeq]; exact hp⟩
  have hadj : adjacent courses c1.id c2.id = true :=
    adjacent_of courses c1 c2 h1 h2 hidne hc
  have hproper : Proper (adjacent courses) f :=
    greedy_proper (adjacent_symm courses) (wpOrder courses) [] f h
      (by intro p hp; cases hp)
  refine ⟨hmemf c1 h1, hmemf c2 h2, ?_⟩
  intro n1 n2 hn1 hn2
  exact hproper (c1.id, n1) hn1 (c2.id, n2) hn2 hidne hadj

/-- Witness for C1 at a concrete input: two courses sharing teacher `T1`,
two slots; the coloring succeeds and assigns slots 0 and 1. -/
theorem C1_conflicting_courses_distinct_slots_witness :
    ([exA, exB].map Course.id).Nodup ∧
    welsh_powell_coloring [exA, exB] 2 = some [("A", 0), ("B", 1)] ∧
    ((∃ n1, (exA.id, n1) ∈ [(("A" : String), (0 : Nat)), ("B", 1)]) ∧
      (∃ n2, (exB.id, n2) ∈ [(("A" : String), (0 : Nat)), ("B", 1)]) ∧
      ∀ n1 n2, (exA.id, n1) ∈ [(("A" : String), (0 : Nat)), ("B", 1)] →
        (exB.id, n2) ∈ [(("A" : String), (0 : Nat)), ("B", 1)] → n1 ≠ n2) :=
  ⟨by decide, by decide,
    C1_conflicting_courses_distinct_slots [exA, exB] 2 [("A", 0), ("B", 1)]
      (by decide) (by decide) exA exB (by decide) (by decide) (by decide)
      (by decide)⟩

/-- Claim C3 (code bug): with two courses sharing a teacher and a single
time slot, the source's coloring loop does not signal a CapacityExceeded
condition — `next(...)` at line 81 finds no free color and raises an
unhandled `StopIteration` (modelled: the coloring returns `none`). -/
theorem C3_coloring_crashes_when_palette_exhausted :
    courseConflict exA exB = true ∧
    welsh_powell_coloring [exA, exB] 1 = none := by
  constructor
  · decide
  · decide

/-- Claim C5: the conflict graph has an edge between two distinct courses
iff their teachers or student groups coincide, has no self-loops, and edge
presence is invariant under permuting the course registration order. -/
theorem C5_conflict_graph_characterization (courses : List Course)
    (hids : (courses.map Course.id).Nodup) :
    (∀ c1 ∈ courses, ∀ c2 ∈ courses, c1 ≠ c2 →
        adjacent courses c1.id c2.id = courseConflict c1 c2) ∧
    (∀ a, adjacent courses a a = false) ∧
    (∀ courses' : List Course, courses.Perm courses' →
        ∀ a b, adjacent courses a b = adjacent courses' a b) := by
  refine ⟨?_, ?_, ?_⟩
  · intro c1 hc1 c2 hc2 hne
    rcases hcc : courseConflict c1 c2 with _ | _
    · rcases hadj : adjacent courses c1.id c2.id with _ | _
      · rfl
      · rcases (adjacent_true_iff hids).mp hadj with
          ⟨d1, hd1, d2, hd2, he1, he2, _, hcc'⟩
        have h1 : d1 = c1 := List.inj_on_of_nodup_map hids hd1 hc1 he1
        have h2 : d2 = c2 := List.inj_on_of_nodup_map hids hd2 hc2 he2
        rw [h1, h2] at hcc'
        rw [hcc'] at hcc
        exact absurd hcc (by simp)
    · rw [adjacent_of courses c1 c2 hc1 hc2
        (fun heq => hne (List.inj_on_of_nodup_map hids hc1 hc2 heq)) hcc]
  · intro a
    rcases hadj : adjacent courses a a with _ | _
    · rfl
    · rcases (adjacent_true_iff hids).mp hadj with
        ⟨d1, _, d2, _, he1, he2, hne, _⟩
      exact absurd (he1.trans he2.symm) hne
  · intro courses' hperm a b
    have hids' : (courses'.map Course.id).Nodup :=
      ((hperm.map Course.id).nodup_iff).mp hids
    rw [Bool.eq_iff_iff, adjacent_true_iff hids, adjacent_true_iff hids']
    constructor
    · rintro ⟨c1, hc1, c2, hc2, h3, h4, h5, h6⟩
      exact ⟨c1, hperm.mem_iff.mp hc1, c2, hperm.mem_iff.mp hc2, h3, h4, h5, h6⟩
    · rintro ⟨c1, hc1, c2, hc2, h3, h4, h5, h6⟩
      exact ⟨c1, hperm.mem_iff.mpr hc1, c2, hperm.mem_iff.mpr hc2, h3, h4, h5, h6⟩

/-- Witness for C5 at a concrete input. -/
theorem C5_conflict_graph_characterization_witness :
    ([exA, exB].map Course.id).Nodup ∧
    ((∀ c1 ∈ [exA, exB], ∀ c2 ∈ [exA, exB], c1 ≠ c2 →
        adjacent [exA, exB] c1.id c2.id = courseConflict c1 c2) ∧
      (∀ a, adjacent [exA, exB] a a = false) ∧
      (∀ courses' : List Course, ([exA, exB]).Perm courses' →
        ∀ a b, adjacent [exA, exB] a b = adjacent courses' a b)) :=
  ⟨by decide, C5_conflict_graph_characterization [exA, exB] (by decide)⟩

/-- Claim C8: the coloring stage processes courses ordered by conflict-graph
degree descending with ties in registration order (stability expressed as:
each degree class appears in registration order), and assigns each processed
course the smallest color in `0..T-1` not taken by its colored neighbors. -/
theorem C8_coloring_order_and_greedy_choice
    (courses : List Course) (T : Nat) (assigns : List (String × Nat))
    (h : welsh_powell_coloring courses T = some assigns) :
    (assigns.map Prod.fst).Pairwise
      (fun a b => degree courses b ≤ degree courses a) ∧
    (∀ d, (assigns.map Prod.fst).filter (fun v => degree courses v == d) =
      (courses.map Course.id).filter (fun v => degree courses v == d)) ∧
    ∀ i, ∀ hi : i < assigns.length, GreedyStep (adjacent courses) T assigns i hi := by
  have hfst : assigns.map Prod.fst = wpOrder courses := by
    have := greedy_fst (wpOrder courses) [] assigns h
    simpa using this
  refine ⟨?_, ?_, ?_⟩
  · rw [hfst]
    exact pairwise_sortDescBy (degree courses) (courses.map Course.id)
  · intro d
    rw [hfst]
    exact filter_sortDescBy (degree courses) (courses.map Course.id) d
  · intro i hi
    exact greedy_ok (wpOrder courses) [] assigns h i (Nat.zero_le i) hi

/-- Witness for C8 at a concrete input. -/
theorem C8_coloring_order_and_greedy_choice_witness :
    welsh_powell_coloring [exA, exB] 2 = some [("A", 0), ("B", 1)] ∧
    ((([(("A" : String), (0 : Nat)), ("B", 1)].map Prod.fst).Pairwise
        (fun a b => degree [exA, exB] b ≤ degree [exA, exB] a)) ∧
      (∀ d, ([(("A" : String), (0 : Nat)), ("B", 1)].map Prod.fst).filter
          (fun v => degree [exA, exB] v == d) =
        ([exA, exB].map Course.id).filter (fun v => degree [exA, exB] v == d)) ∧
      ∀ i, ∀ hi : i < [(("A" : String), (0 : Nat)), ("B", 1)].length,
        GreedyStep (adjacent [exA, exB]) 2 [("A", 0), ("B", 1)] i hi) :=
  ⟨by decide,
    C8_coloring_order_and_greedy_choice [exA, exB] 2 [("A", 0), ("B", 1)]
      (by decide)⟩

/-- Claim C2: after every step of `assign_rooms` (every state it passes
through is the result of running it on a prefix of the course list from the
empty map, which this theorem covers by quantifying over the course list),
two distinct courses assigned to the same room have non-overlapping slots,
where overlap is same `day` and `start1 < end2` and `start2 < end1`; in
addition every assigned course has a well-defined slot. -/
theorem C2_no_double_booking (rooms : List Room) (colorA : List (String × Nat))
    (slots : List TimeSlot) (courses : List Course)
    (roomA : List (String × String))
    (h : assign_rooms rooms colorA slots courses [] = some roomA) :
    (∀ p ∈ roomA, ∃ s, slotOf colorA slots p.1 = some s) ∧
    ∀ p ∈ roomA, ∀ q ∈ roomA, p.1 ≠ q.1 → p.2 = q.2 →
      ∀ s1 s2, slotOf colorA slots p.1 = some s1 →
        slotOf colorA slots q.1 = some s2 →
        _time_slots_overlap s1 s2 = false := by
  rcases roomInv_assign_rooms (roomInv_empty colorA slots) h with ⟨_, h2, h3⟩
  exact ⟨h2, h3⟩

/-- Witness for C2 at a concrete input: both example courses end up in room
`FCSE-LH1` at non-overlapping Monday slots. -/
theorem C2_no_double_booking_witness :
    assign_rooms [exLH1, exNAB5] exColorAB [exMon8, exMon9] [exA, exB] [] =
      some exRoomAB ∧
    ((∀ p ∈ exRoomAB, ∃ s, slotOf exColorAB [exMon8, exMon9] p.1 = some s) ∧
      ∀ p ∈ exRoomAB, ∀ q ∈ exRoomAB, p.1 ≠ q.1 → p.2 = q.2 →
        ∀ s1 s2, slotOf exColorAB [exMon8, exMon9] p.1 = some s1 →
          slotOf exColorAB [exMon8, exMon9] q.1 = some s2 →
          _time_slots_overlap s1 s2 = false) :=
  ⟨by decide,
    C2_no_double_booking [exLH1, exNAB5] exColorAB [exMon8, exMon9]
      [exA, exB] exRoomAB (by decide)⟩

/-- Claim C6: if some room of the course's own department is available at
the course's slot when the allocator processes the course, the allocator
assigns the course a room of its own department. -/
theorem C6_home_tier_priority (rooms : List Room)
    (colorA : List (String × Nat)) (slots : List TimeSlot)
    (roomA : List (String × String)) (c : Course)
    (roomA' : List (String × String))
    (h : assignCourse rooms colorA slots roomA c = some roomA')
    (slot : TimeSlot) (hslot : slotOf colorA slots c.id = some slot)
    (r0 : Room) (hr0 : r0 ∈ rooms) (hdept : r0.department = c.department)
    (havail : _is_room_available colorA slots roomA r0.id slot = some true) :
    ∃ r ∈ rooms, r.department = c.department ∧
      roomA' = dictInsert c.id r.id roomA := by
  rcases assignCourse_elim h with ⟨idx, slot', hl, hs, hcase⟩
  have hsl : slotOf colorA slots c.id = some slot' := slotOf_of_lookup hl hs
  rw [hslot] at hsl
  injection hsl with hsl
  subst hsl
  have hr0t1 : r0 ∈ rooms.filter (fun r => r.department == c.department) :=
    List.mem_filter.mpr ⟨hr0, beq_iff_eq.mpr hdept⟩
  rcases hcase with ⟨ht, _⟩ | ⟨r, ht, hins⟩
  · have hfa := tryTiers_none_elim ht
      (rooms.filter (fun r => r.department == c.department))
      (by simp [tiers])
    have := findAvailable_none_elim hfa r0 hr0t1
    rw [havail] at this
    cases this
  · simp only [tiers] at ht
    rcases tryTiers_head_priority hr0t1 havail ht with ⟨rr, hrrt1, heq, _⟩
    injection heq with heq
    subst heq
    rcases List.mem_filter.mp hrrt1 with ⟨hrrmem, hrrdept⟩
    exact ⟨r, hrrmem, beq_iff_eq.mp hrrdept, hins⟩

/-- Witness for C6 at a concrete input: `exA`'s own-department room
`FCSE-LH1` is free, and the allocator indeed picks a home room. -/
theorem C6_home_tier_priority_witness :
    assignCourse [exLH1, exNAB5] exColorAB [exMon8, exMon9] [] exA =
      some exRoomA1 ∧
    slotOf exColorAB [exMon8, exMon9] exA.id = some exMon8 ∧
    exLH1 ∈ [exLH1, exNAB5] ∧
    exLH1.department = exA.department ∧
    _is_room_available exColorAB [exMon8, exMon9] [] exLH1.id exMon8 =
      some true ∧
    ∃ r ∈ [exLH1, exNAB5], r.department = exA.department ∧
      exRoomA1 = dictInsert exA.id r.id [] :=
  ⟨by decide, by decide, by decide, by decide, by decide,
    C6_home_tier_priority [exLH1, exNAB5] exColorAB [exMon8, exMon9] [] exA
      exRoomA1 (by decide) exMon8 (by decide) exLH1 (by decide) (by decide)
      (by decide)⟩

/-- Claim C7: a course is absent from the final room assignment iff, in the
allocation state at the moment it was processed, every room of all three
tiers was occupied by an overlapping already-assigned course. -/
theorem C7_unscheduled_iff_every_tier_occupied (rooms : List Room)
    (colorA : List (String × Nat)) (slots : List TimeSlot)
    (pre post : List Course) (c : Course)
    (final roomApre : List (String × String))
    (hids : ((pre ++ c :: post).map Course.id).Nodup)
    (hall : assign_rooms rooms colorA slots (pre ++ c :: post) [] = some final)
    (hpre : assign_rooms rooms colorA slots pre [] = some roomApre)
    (slot : TimeSlot) (hslot : slotOf colorA slots c.id = some slot) :
    final.lookup c.id = none ↔
      ∀ t ∈ tiers rooms c, ∀ r ∈ t,
        _is_room_available colorA slots roomApre r.id slot = some false := by
  rw [List.map_append, List.map_cons] at hids
  rcases List.nodup_append.mp hids with ⟨_, h2n, hdisj⟩
  have hcpost : c.id ∉ post.map Course.id := (List.nodup_cons.mp h2n).1
  have hcpre : c.id ∉ pre.map Course.id :=
    fun hmem => hdisj hmem (List.mem_cons_self _ _)
  have h1 := assign_rooms_append rooms colorA slots pre (c :: post) []
  rw [hpre] at h1
  simp only at h1
  rw [h1] at hall
  simp only [assign_rooms] at hall
  rcases ha : assignCourse rooms colorA slots roomApre c with _ | roomA1
  · simp only [ha] at hall
    exact Option.noConfusion hall
  · simp only [ha] at hall
    rcases assignCourse_elim ha with ⟨idx, slot', hl, hs, hcase⟩
    have hsl : slotOf colorA slots c.id = some slot' := slotOf_of_lookup hl hs
    rw [hslot] at hsl
    injection hsl with hsl
    subst hsl
    constructor
    · intro hnone
      rcases hcase with ⟨ht, _⟩ | ⟨r, ht, hins⟩
      · intro t htmem r hrmem
        exact findAvailable_none_elim (tryTiers_none_elim ht t htmem) r hrmem
      · exfalso
        have hfin : final.lookup c.id = roomA1.lookup c.id :=
          assign_rooms_lookup_of_not_mem hcpost hall
        rw [hins, lookup_dictInsert_self] at hfin
        rw [hnone] at hfin
        exact Option.noConfusion hfin
    · intro hocc
      rcases hcase with ⟨_, hsame⟩ | ⟨r, ht, _⟩
      · subst hsame
        rw [assign_rooms_lookup_of_not_mem hcpost hall,
          assign_rooms_lookup_of_not_mem hcpre hpre]
        rfl
      · exfalso
        rcases tryTiers_some_elim ht with ⟨t, htmem, hrt, htrue⟩
        have hboth := hocc t htmem r hrt
        rw [htrue] at hboth
        exact Bool.noConfusion (Option.some.inj hboth)

/-- Witness for C7 at a concrete input: processing `exB` after `exA`; a room
is found, and indeed not every tier is occupied. -/
theorem C7_unscheduled_iff_every_tier_occupied_witness :
    (([exA] ++ exB :: []).map Course.id).Nodup ∧
    assign_rooms [exLH1, exNAB5] exColorAB [exMon8, exMon9]
      ([exA] ++ exB :: []) [] = some exRoomAB ∧
    assign_rooms [exLH1, exNAB5] exColorAB [exMon8, exMon9] [exA] [] =
      some exRoomA1 ∧
    slotOf exColorAB [exMon8, exMon9] exB.id = some exMon9 ∧
    (exRoomAB.lookup exB.id = none ↔
      ∀ t ∈ tiers [exLH1, exNAB5] exB, ∀ r ∈ t,
        _is_room_available exColorAB [exMon8, exMon9] exRoomA1 r.id exMon9 =
          some false) :=
  ⟨by decide, by decide, by decide, by decide,
    C7_unscheduled_iff_every_tier_occupied [exLH1, exNAB5] exColorAB
      [exMon8, exMon9] [exA] [] exB exRoomAB exRoomA1 (by decide) (by decide)
      (by decide) exMon9 (by decide)⟩

/-- Claim C10: every course id in the final room assignment is a colored
course; each course has at most one entry (keys are duplicate-free); and an
entry, once written while processing a prefix, persists unchanged in the
final assignment. -/
theorem C10_room_entries_colored_and_write_once (rooms : List Room)
    (colorA : List (String × Nat)) (slots : List TimeSlot)
    (courses : List Course) (final : List (String × String))
    (hids : (courses.map Course.id).Nodup)
    (h : assign_rooms rooms colorA slots courses [] = some final) :
    (∀ k r, final.lookup k = some r → ∃ n, colorA.lookup k = some n) ∧
    KeyNodup final ∧
    (∀ pre post roomApre, courses = pre ++ post →
      assign_rooms rooms colorA slots pre [] = some roomApre →
      ∀ k r, roomApre.lookup k = some r → final.lookup k = some r) := by
  refine ⟨?_, ?_, ?_⟩
  · refine assign_rooms_colored ?_ h
    intro k r hk
    exact Option.noConfusion hk
  · exact (roomInv_assign_rooms (roomInv_empty colorA slots) h).1
  · intro pre post roomApre hsplit hpre k r hk
    subst hsplit
    have hkpre : k ∈ pre.map Course.id := by
      by_contra hnk
      rw [assign_rooms_lookup_of_not_mem hnk hpre] at hk
      exact Option.noConfusion hk
    rw [List.map_append] at hids
    rcases List.nodup_append.mp hids with ⟨_, _, hdisj⟩
    have hkpost : k ∉ post.map Course.id := fun hmem => hdisj hkpre hmem
    have h1 := assign_rooms_append rooms colorA slots pre post []
    rw [hpre] at h1
    simp only at h1
    rw [h1] at h
    rw [assign_rooms_lookup_of_not_mem hkpost h]
    exact hk

/-- Witness for C10 at a concrete input. -/
theorem C10_room_entries_colored_and_write_once_witness :
    ([exA, exB].map Course.id).Nodup ∧
    assign_rooms [exLH1, exNAB5] exColorAB [exMon8, exMon9] [exA, exB] [] =
      some exRoomAB ∧
    ((∀ k r, exRoomAB.lookup k = some r → ∃ n, exColorAB.lookup k = some n) ∧
      KeyNodup exRoomAB ∧
      (∀ pre post roomApre, [exA, exB] = pre ++ post →
        assign_rooms [exLH1, exNAB5] exColorAB [exMon8, exMon9] pre [] =
          some roomApre →
        ∀ k r, roomApre.lookup k = some r → exRoomAB.lookup k = some r)) :=
  ⟨by decide, by decide,
    C10_room_entries_colored_and_write_once [exLH1, exNAB5] exColorAB
      [exMon8, exMon9] [exA, exB] exRoomAB (by decide) (by decide)⟩

/-- Claim C4 (code bug): when no room in any tier is available, the course
is indeed left without a `RoomAssignment` entry and `assign_rooms` and
`optimize_schedules` complete normally — but the full run does not:
`_format_timetable` (line 186) evaluates `self.room_assignments[course.id]`
for every registered course and raises `KeyError` for the unassigned course,
so `generate_timetable` aborts (modelled: it returns `none`). The
repository's own test driver wraps `generate_timetable` in
`except KeyError` for exactly this case. Concrete input: one course, one
slot, an empty room catalog. -/
theorem C4_unassigned_course_crashes_formatting :
    welsh_powell_coloring [exA] 1 = some [("A", 0)] ∧
    assign_rooms [] [("A", 0)] [exMon8] [exA] [] = some [] ∧
    build_schedule_entries [exMon8] [] [("A", 0)] [] [exA] = some [] ∧
    generate_timetable [exA] [exMon8] [] = none := by
  refine ⟨by decide, by decide, by decide, by decide⟩

/-- Counterexample to claim C9: with teacher `T1` teaching `exD` (assigned
Tuesday 08:00) and `exE` (assigned Monday 09:00), the compiled schedule is
ordered `[Tuesday 08:00, Monday 09:00]` — `optimize_schedules` sorts by
`start_time` only — so the weekday indices are not monotone, violating the
claimed Monday→Friday weekday ordering. -/
theorem C9_schedule_weekday_order_counterexample :
    welsh_powell_coloring [exD, exE] 2 = some ex9Colors ∧
    assign_rooms [exLH1, exNAB5] ex9Colors [exTue8, exMon9] [exD, exE] [] =
      some ex9RoomA ∧
    teacher_schedule "T1" [exD, exE] [exTue8, exMon9] [exLH1, exNAB5]
      ex9Colors ex9RoomA = some ex9Sched ∧
    ¬ SpecDayMonotone ex9Sched := by
  refine ⟨by decide, by decide, by decide, ?_⟩
  intro h
  have h01 : specDayIndex exTue8.day ≤ specDayIndex exMon9.day := by
    rcases List.pairwise_cons.mp h with ⟨hfst, _⟩
    exact hfst (exE, exMon9, exLH1) (List.mem_singleton.mpr rfl)
  exact absurd h01 (by decide)

/-- Claim C9 as amended: each per-teacher and per-student-group sequence is
sorted ascending by slot start time-of-day only — the weekday plays no role
in the ordering, and ties (including entries of different days with equal
start times) keep course-registration order rather than course-id order
(stated as: each start-time class equals the corresponding filtered slice of
the registration-ordered entry list); courses absent from `RoomAssignment`
are skipped and appear in no schedule. -/
theorem C9_schedules_sorted_by_start_time_only (t g : String)
    (courses : List Course) (slots : List TimeSlot) (rooms : List Room)
    (colorA : List (String × Nat)) (roomA : List (String × String))
    (es : List (Course × TimeSlot × Room))
    (h : build_schedule_entries slots rooms colorA roomA courses = some es) :
    (∀ l, teacher_schedule t courses slots rooms colorA roomA = some l →
      l.Pairwise (fun e1 e2 => entryStart e1 ≤ entryStart e2) ∧
      (∀ v, l.filter (fun e => entryStart e == v) =
        (es.filter (fun e => e.1.teacher == t)).filter
          (fun e => entryStart e == v)) ∧
      ∀ e ∈ l, e.1.teacher = t ∧ ∃ rid, roomA.lookup e.1.id = some rid) ∧
    (∀ l, student_schedule g courses slots rooms colorA roomA = some l →
      l.Pairwise (fun e1 e2 => entryStart e1 ≤ entryStart e2) ∧
      (∀ v, l.filter (fun e => entryStart e == v) =
        (es.filter (fun e => e.1.student_group == g)).filter
          (fun e => entryStart e == v)) ∧
      ∀ e ∈ l, e.1.student_group = g ∧ ∃ rid, roomA.lookup e.1.id = some rid) := by
  constructor
  · intro l hl
    unfold teacher_schedule at hl
    rw [h] at hl
    simp only [Option.map] at hl
    simp only [Option.some.injEq] at hl
    subst hl
    refine ⟨pairwise_sortAscBy _ _, fun v => filter_sortAscBy _ _ v, ?_⟩
    intro e he
    have hemem : e ∈ es.filter (fun e => e.1.teacher == t) :=
      (perm_sortAscBy entryStart _).mem_iff.mp he
    rcases List.mem_filter.mp hemem with ⟨hees, het⟩
    exact ⟨beq_iff_eq.mp het, build_entries_room h e hees⟩
  · intro l hl
    unfold student_schedule at hl
    rw [h] at hl
    simp only [Option.map] at hl
    simp only [Option.some.injEq] at hl
    subst hl
    refine ⟨pairwise_sortAscBy _ _, fun v => filter_sortAscBy _ _ v, ?_⟩
    intro e he
    have hemem : e ∈ es.filter (fun e => e.1.student_group == g) :=
      (perm_sortAscBy entryStart _).mem_iff.mp he
    rcases List.mem_filter.mp hemem with ⟨hees, heg⟩
    exact ⟨beq_iff_eq.mp heg, build_entries_room h e hees⟩

/-- Witness for the amended C9 at a concrete input. -/
theorem C9_schedules_sorted_by_start_time_only_witness :
    build_schedule_entries [exTue8, exMon9] [exLH1, exNAB5] ex9Colors ex9RoomA
      [exD, exE] = some ex9Sched ∧
    ((∀ l, teacher_schedule "T1" [exD, exE] [exTue8, exMon9] [exLH1, exNAB5]
        ex9Colors ex9RoomA = some l →
      l.Pairwise (fun e1 e2 => entryStart e1 ≤ entryStart e2) ∧
      (∀ v, l.filter (fun e => entryStart e == v) =
        (ex9Sched.filter (fun e => e.1.teacher == "T1")).filter
          (fun e => entryStart e == v)) ∧
      ∀ e ∈ l, e.1.teacher = "T1" ∧ ∃ rid, ex9RoomA.lookup e.1.id = some rid) ∧
    (∀ l, student_schedule "G1" [exD, exE] [exTue8, exMon9] [exLH1, exNAB5]
        ex9Colors ex9RoomA = some l →
      l.Pairwise (fun e1 e2 => entryStart e1 ≤ entryStart e2) ∧
      (∀ v, l.filter (fun e => entryStart e == v) =
        (ex9Sched.filter (fun e => e.1.student_group == "G1")).filter
          (fun e => entryStart e == v)) ∧
      ∀ e ∈ l, e.1.student_group = "G1" ∧
        ∃ rid, ex9RoomA.lookup e.1.id = some rid)) :=
  ⟨by decide,
    C9_schedules_sorted_by_start_time_only "T1" "G1" [exD, exE]
      [exTue8, exMon9] [exLH1, exNAB5] ex9Colors ex9RoomA ex9Sched (by decide)⟩

end Timetable
